import Mathlib

/-!
Verification development for the `stock-manager` chat-bot plugin
(`src/lib/index.js`).  JavaScript strings are modelled as lists of
characters, the in-memory `Map`s as association lists that keep insertion
order, and JavaScript numbers reached by the counters as integers.
-/

namespace StockManager

/-- Strings of the JavaScript source, modelled as lists of characters. -/
abbrev Str := List Char

/-- JavaScript word characters, the class `[A-Za-z0-9_]` that `\b` uses. -/
def isWordChar (c : Char) : Bool := c.isAlpha || c.isDigit || c = '_'

/-- Characters matched by `.` in a JavaScript regular expression without the
`s` flag: anything but a line terminator. -/
def isDotChar (c : Char) : Bool := !(c = '\n' || c = '\r')

/-- The three operator characters of the operation pattern. -/
def isOpChar (c : Char) : Bool := c = '+' || c = '-' || c = '='

/-- Whether the position between characters `prev` and `c` (`none` at either
end of the string) is a `\b` word boundary. -/
def isBoundary (prev c : Option Char) : Bool :=
  (prev.elim false isWordChar) != (c.elim false isWordChar)

/-- Left-to-right scan of `/\b-r\b/` over the string; `prev` is the character
just before the current position.  Returns whether some occurrence matches,
as `/\b-r\b/.test(text)` does. -/
def hasRToken (prev : Option Char) : Str → Bool
  | '-' :: 'r' :: rest =>
      (isBoundary prev (some '-') && isBoundary (some 'r') rest.head?) ||
        hasRToken (some '-') ('r' :: rest)
  | c :: rest => hasRToken (some c) rest
  | [] => false

/-- Left-to-right removal of every `/\b-r\b/g` occurrence, with boundary
lookaround evaluated against the original characters, as
`text.replace(/\b-r\b/g, '')` does. -/
def stripRAux (prev : Option Char) : Str → Str
  | '-' :: 'r' :: rest =>
      if isBoundary prev (some '-') && isBoundary (some 'r') rest.head? then
        stripRAux (some 'r') rest
      else '-' :: stripRAux (some '-') ('r' :: rest)
  | c :: rest => c :: stripRAux (some c) rest
  | [] => []

/-- `/\b-r\b/.test(text)`. -/
def testRFlag (t : Str) : Bool := hasRToken none t

/-- `text.replace(/\b-r\b/g, '')`. -/
def stripRFlag (t : Str) : Str := stripRAux none t

/-- JavaScript `String.prototype.trim`. -/
def jsTrim (s : Str) : Str :=
  ((s.dropWhile Char.isWhitespace).reverse.dropWhile Char.isWhitespace).reverse

/-- JavaScript `toLowerCase`, restricted to the ASCII case mapping (the only
case-carrying characters the plugin handles). -/
def lowerStr (s : Str) : Str := s.map Char.toLower

/-- `parseInt(valueStr, 10)` on a non-empty all-digit string. -/
def digitsToNat (s : Str) : Nat := s.foldl (fun n c => 10 * n + (c.toNat - '0'.toNat)) 0

/-- One entry of the configured item list (`config.items`). -/
structure ItemCfg where
  name : Str
  aliases : List Str
deriving DecidableEq

/-- The alias map built at startup: `aliasMap.set(alias.toLowerCase(),
item.name)` for every configured alias, later entries overwriting earlier
ones. -/
def aliasPairs (cfg : List ItemCfg) : List (Str × Str) :=
  cfg.flatMap (fun it => it.aliases.map (fun a => (lowerStr a, it.name)))

/-- `getItemName`: case-insensitive exact lookup in the alias map (the last
write to a key wins, as in a JavaScript `Map`). -/
def getItemName (cfg : List ItemCfg) (a : Str) : Option Str :=
  ((aliasPairs cfg).reverse.find? (fun p => decide (p.1 = lowerStr a))).map (fun p => p.2)

/-- Does the remainder consist of one operator character followed by one or
more digits, running to the end of the string? -/
def tailMatch : Str → Option (Char × Str)
  | c :: ds => if isOpChar c && !ds.isEmpty && ds.all (fun d => d.isDigit) then some (c, ds) else none
  | [] => none

/-- The anchored lazy pattern `^(.+?)([+\-=])(\d+)$`: the first group takes
the shortest non-empty run of `.`-matchable characters whose remainder is one
operator followed only by digits. -/
def matchOpPattern : Str → Option (Str × Char × Str)
  | [] => none
  | c :: rest =>
    if isDotChar c then
      match tailMatch rest with
      | some (op, ds) => some ([c], op, ds)
      | none =>
        match matchOpPattern rest with
        | some (a, op, ds) => some (c :: a, op, ds)
        | none => none
    else none

/-- The structured mutation intent `parseOperation` returns. -/
structure Parsed where
  itemName : Str
  operation : Char
  value : Nat
  noRank : Bool
deriving DecidableEq

/-- `parseOperation` of the source: detect and strip the `-r` flag, trim,
match the pattern, resolve the alias, and read the digits.  (The source's
`isNaN` guard never fires on an all-digit group and is dropped.) -/
def parseOperation (cfg : List ItemCfg) (text : Str) : Option Parsed :=
  let noRank := testRFlag text
  let cleanText := jsTrim (stripRFlag text)
  match matchOpPattern cleanText with
  | none => none
  | some (a, op, ds) =>
    match getItemName cfg (jsTrim a) with
    | none => none
    | some itemName => some ⟨itemName, op, digitsToNat ds, noRank⟩

/-- The default configured item: `纯净水` with aliases `water`, `水`,
`纯净水`. -/
def defaultItems : List ItemCfg :=
  [⟨['纯', '净', '水'], [['w', 'a', 't', 'e', 'r'], ['水'], ['纯', '净', '水']]⟩]

/-! ## Data model and inventory engine -/

/-- An item of the in-memory stock table (`StockItem` of the source).  The
counters are JavaScript numbers; every value they take here is an integer. -/
structure StockItem where
  name : Str
  aliases : List Str
  count : Int
  totalAdded : Int
  totalConsumed : Int
deriving DecidableEq

/-- A history entry (`StockRecord` of the source). -/
structure StockRecord where
  id : Nat
  itemName : Str
  userId : Str
  userName : Str
  change : Int
  timestamp : Int
  isRanked : Bool
deriving DecidableEq

/-- The audit token appended to every successful mutation response, minus its
random suffix: `tag: timestamp_userId_itemName_rand6`. -/
structure VerifCode where
  timestamp : Int
  userId : Str
  itemName : Str
deriving DecidableEq

/-- The message author the engine reads from the session. -/
structure Actor where
  userId : Str
  userName : Str
deriving DecidableEq

/-- `stockData.get`: the stock table is an insertion-ordered association
list keyed by item name. -/
def lookupStock (stock : List (Str × StockItem)) (n : Str) : Option StockItem :=
  (stock.find? (fun p => decide (p.1 = n))).map (fun p => p.2)

/-- `stockData.set(item.name, item)`: replace in place, or append when the
key is new. -/
def updateStock : List (Str × StockItem) → StockItem → List (Str × StockItem)
  | [], it => [(it.name, it)]
  | (k, old) :: rest, it => if k = it.name then (k, it) :: rest else (k, old) :: updateStock rest it

/-- Outcome of the arithmetic part of `handleOperation` on one item:
either the `diff === 0` no-op or a mutated item with the signed `change`
and the display operator `actualOp`. -/
inductive ApplyOut where
  | unchanged (item : StockItem)
  | changed (item : StockItem) (change : Int) (actualOp : Char)
deriving DecidableEq

/-- The `if (op.operation === '+') ... else if ... else if (op.operation
=== '=') ...` block of `handleOperation`, acting on the looked-up item. -/
def applyOp (item : StockItem) (op : Char) (v : Nat) (noRank : Bool) : ApplyOut :=
  if op = '+' then
    .changed
      { item with
        count := item.count + v
        totalAdded := if noRank then item.totalAdded else item.totalAdded + v }
      (v : Int) '+'
  else if op = '-' then
    .changed
      { item with
        count := if item.count - v < 0 then 0 else item.count - v
        totalConsumed := if noRank then item.totalConsumed else item.totalConsumed + v }
      (-(v : Int)) '-'
  else if op = '=' then
    if (v : Int) - item.count > 0 then
      .changed
        { item with
          count := (v : Int)
          totalAdded :=
            if noRank then item.totalAdded else item.totalAdded + ((v : Int) - item.count) }
        ((v : Int) - item.count) '+'
    else if (v : Int) - item.count < 0 then
      .changed
        { item with
          count := (v : Int)
          totalConsumed :=
            if noRank then item.totalConsumed else item.totalConsumed + |(v : Int) - item.count| }
        ((v : Int) - item.count) '-'
    else .unchanged item
  else .changed item 0 '+'

/-! ## Ranking aggregator -/

/-- The two leaderboard types. -/
inductive RankType where
  | add
  | consume
deriving DecidableEq

/-- One value of the `userStats` map: display name and summed total. -/
structure UStat where
  name : Str
  count : Int
deriving DecidableEq

/-- `userStats.set(key, current)` where `current` was `userStats.get(key) ||
{name: r.userName, count: 0}`: an existing entry keeps its position and its
first-seen name; a new key is appended. -/
def bumpStat : List (Str × UStat) → Str → Str → Int → List (Str × UStat)
  | [], uid, uname, v => [(uid, ⟨uname, v⟩)]
  | (k, s) :: rest, uid, uname, v =>
    if k = uid then (k, ⟨s.name, s.count + v⟩) :: rest
    else (k, s) :: bumpStat rest uid uname v

/-- One step of the `relevantRecords.forEach` loop of `getRanking`. -/
def statsStep (ty : RankType) (m : List (Str × UStat)) (r : StockRecord) :
    List (Str × UStat) :=
  if ty = .consume ∧ r.change < 0 then bumpStat m r.userId r.userName (|r.change|)
  else if ty = .add ∧ r.change > 0 then bumpStat m r.userId r.userName r.change
  else m

/-- Descending order on summed totals, the comparator
`(a, b) => b.count - a.count`. -/
def statGe (a b : UStat) : Prop := b.count ≤ a.count

instance : DecidableRel statGe := fun a b => inferInstanceAs (Decidable (b.count ≤ a.count))

instance : IsTotal UStat statGe := ⟨fun a b => le_total b.count a.count⟩

instance : IsTrans UStat statGe := ⟨fun _ _ _ h h2 => le_trans h2 h⟩

/-- What `getRanking` returns, structurally: the empty string for a missing
item, the two literal placeholder strings, or the rendered top list. -/
inductive RankOut where
  | emptyStr
  | placeholder (ty : RankType)
  | top (l : List UStat)
deriving DecidableEq

/-- `getRanking` of the source: filter the log to the item's ranked entries,
fold them into the `userStats` map, sort its values descending by total
(JavaScript's sort is stable; insertion sort with a non-strict relation is
the same stable sort), and keep the top 10. -/
def getRanking (stock : List (Str × StockItem)) (records : List StockRecord)
    (itemName : Str) (ty : RankType) : RankOut :=
  match lookupStock stock itemName with
  | none => .emptyStr
  | some _ =>
    let relevant := records.filter (fun r => decide (r.itemName = itemName) && r.isRanked)
    let stats := relevant.foldl (statsStep ty) []
    let sorted := ((stats.map (fun p => p.2)).insertionSort statGe).take 10
    if sorted.isEmpty then .placeholder ty else .top sorted

/-! ## The mutation path -/

/-- The engine's process state: the stock table, the records cache with the
next record id, and how many debounced flushes each store has had scheduled
(each `saveStockItem` / `addRecord` call schedules or resets one). -/
structure EngineState where
  stock : List (Str × StockItem)
  records : List StockRecord
  nextId : Nat
  itemFlushes : Nat
  recordFlushes : Nat
deriving DecidableEq

/-- What `handleOperation` sends back to the session. -/
inductive Response where
  | notFound (itemName : Str)
  | unchanged (itemName : Str) (count : Int)
  | saveFailed (itemName : Str)
  | success (itemName : Str) (actualOp : Char) (change : Int) (count : Int)
      (ranked : Bool) (code : VerifCode) (ranking : Option RankOut)
deriving DecidableEq

/-- `handleOperation` of the source: look the item up, mutate it in place,
and — unless the `=` operation was a no-op — persist the item, append the
history entry and answer with a verification code (plus the refreshed
leaderboard when the operation is ranked).  `saveOk` abstracts whether the
awaited persistence step throws; when it does, the error reply is sent and
nothing is rolled back. -/
def handleOperation (st : EngineState) (op : Parsed) (actor : Actor) (ts : Int)
    (saveOk : Bool) : EngineState × Response :=
  match lookupStock st.stock op.itemName with
  | none => (st, .notFound op.itemName)
  | some item =>
    match applyOp item op.operation op.value op.noRank with
    | .unchanged item0 => (st, .unchanged op.itemName item0.count)
    | .changed item1 change actualOp =>
      let st1 := { st with stock := updateStock st.stock item1,
                           itemFlushes := st.itemFlushes + 1 }
      if saveOk then
        let rec0 : StockRecord :=
          { id := st.nextId, itemName := op.itemName, userId := actor.userId,
            userName := actor.userName, change := change, timestamp := ts,
            isRanked := !op.noRank }
        let st2 :=
          { st1 with
            records := st1.records ++ [rec0]
            nextId := st.nextId + 1
            recordFlushes := st.recordFlushes + 1 }
        let rk := if op.noRank then none
          else some (getRanking st2.stock st2.records op.itemName
            (if actualOp = '+' then .add else .consume))
        (st2, .success op.itemName actualOp change item1.count (!op.noRank)
          ⟨ts, actor.userId, op.itemName⟩ rk)
      else (st1, .saveFailed op.itemName)

/-- The `stock.set` admin action: resolve the alias, overwrite the count
verbatim and persist.  Unknown items leave the state unchanged. -/
def adminSetCount (st : EngineState) (n : Str) (c : Int) : EngineState :=
  match lookupStock st.stock n with
  | none => st
  | some it =>
    { st with stock := updateStock st.stock { it with count := c },
              itemFlushes := st.itemFlushes + 1 }

/-- One inbound mutation: a parsed free-text operation or an admin
`stock.set`. -/
inductive Act where
  | msg (op : Parsed) (actor : Actor) (ts : Int) (saveOk : Bool)
  | adminSet (n : Str) (c : Int)
deriving DecidableEq

/-- One engine step. -/
def stepE (st : EngineState) : Act → EngineState
  | .msg op actor ts saveOk => (handleOperation st op actor ts saveOk).1
  | .adminSet n c => adminSetCount st n c

/-- The freshly-initialized engine: every configured item at count 0 and no
records. -/
def initState (cfg : List ItemCfg) : EngineState :=
  { stock := cfg.map (fun it => (it.name, ⟨it.name, it.aliases, 0, 0, 0⟩)),
    records := [], nextId := 1, itemFlushes := 0, recordFlushes := 0 }

/-! ## History persistence -/

/-- Newest-first order on history entries, the comparator
`(a, b) => b.timestamp - a.timestamp`. -/
def recGe (a b : StockRecord) : Prop := b.timestamp ≤ a.timestamp

instance : DecidableRel recGe := fun a b => inferInstanceAs (Decidable (b.timestamp ≤ a.timestamp))

instance : IsTotal StockRecord recGe := ⟨fun a b => le_total b.timestamp a.timestamp⟩

instance : IsTrans StockRecord recGe := ⟨fun _ _ _ h h2 => le_trans h2 h⟩

/-- `saveRecords`: what a history flush writes — the records sorted newest
first (stably), cut to 100, and reversed back to ascending timestamps. -/
def saveRecords (records : List StockRecord) : List StockRecord :=
  ((records.insertionSort recGe).take 100).reverse

/-- The entries a history flush evicts. -/
def evictedRecords (records : List StockRecord) : List StockRecord :=
  (records.insertionSort recGe).drop 100

/-! ## The ranking contract, written from the specification's words

These definitions restate §4.5 declaratively, to be compared with the
operational `getRanking` above. -/

/-- Does the record's sign match the requested leaderboard type? -/
def signOk (ty : RankType) (r : StockRecord) : Bool :=
  match ty with
  | .add => decide (r.change > 0)
  | .consume => decide (r.change < 0)

/-- The record's contribution to its user's total. -/
def contribOf (ty : RankType) (r : StockRecord) : Int :=
  match ty with
  | .add => r.change
  | .consume => |r.change|

/-- The entries of the log that match the item, are ranked, and have the
sign the requested type selects. -/
def matchingRecords (records : List StockRecord) (itemName : Str) (ty : RankType) :
    List StockRecord :=
  records.filter (fun r => decide (r.itemName = itemName) && r.isRanked && signOk ty r)

/-- The distinct user ids of a list, in first-occurrence order. -/
def firstDedup : List Str → List Str
  | [] => []
  | k :: rest => k :: (firstDedup rest).filter (fun x => decide (x ≠ k))

/-- A user's summed total over the matching entries. -/
def userTotal (ty : RankType) (l : List StockRecord) (uid : Str) : Int :=
  ((l.filter (fun r => decide (r.userId = uid))).map (contribOf ty)).sum

/-- The first `userName` the log shows for a user id. -/
def firstNameFor (l : List StockRecord) (uid : Str) : Str :=
  ((l.find? (fun r => decide (r.userId = uid))).map (fun r => r.userName)).getD []

/-- The most recent `userName` the log shows for a user id. -/
def lastNameFor (l : List StockRecord) (uid : Str) : Str :=
  ((l.reverse.find? (fun r => decide (r.userId = uid))).map (fun r => r.userName)).getD []

/-- §4.5 as the claim words it, except that each user is displayed with the
first `userName` the filtered log shows for their id: group-sum the matching
entries by user id, sort descending by total, keep the top 10, and fall back
to the placeholder when nothing matches. -/
def rankingFirstName (records : List StockRecord) (itemName : Str) (ty : RankType) :
    RankOut :=
  let matching := matchingRecords records itemName ty
  let stats := (firstDedup (matching.map (fun r => r.userId))).map
    (fun u => (⟨firstNameFor matching u, userTotal ty matching u⟩ : UStat))
  if matching.isEmpty then .placeholder ty
  else .top ((stats.insertionSort statGe).take 10)

/-- §4.5 exactly as the claim words it, with the most recent (last-write-wins)
`userName` per user id. -/
def rankingLastName (records : List StockRecord) (itemName : Str) (ty : RankType) :
    RankOut :=
  let matching := matchingRecords records itemName ty
  let stats := (firstDedup (matching.map (fun r => r.userId))).map
    (fun u => (⟨lastNameFor matching u, userTotal ty matching u⟩ : UStat))
  if matching.isEmpty then .placeholder ty
  else .top ((stats.insertionSort statGe).take 10)

/-! ## Further definitions used by the lemmas and claim statements -/

def mkRecord (st : EngineState) (op : Parsed) (actor : Actor) (ts : Int) (change : Int) :
    StockRecord :=
  { id := st.nextId, itemName := op.itemName, userId := actor.userId,
    userName := actor.userName, change := change, timestamp := ts, isRanked := !op.noRank }

def bumpContrib (ty : RankType) (m : List (Str × UStat)) (r : StockRecord) :
    List (Str × UStat) :=
  bumpStat m r.userId r.userName (contribOf ty r)

def countsOk (st : EngineState) : Bool :=
  st.stock.all (fun p => decide (0 ≤ p.2.count))

def waterN : Str := ['纯', '净', '水']

def itemW : StockItem :=
  ⟨waterN, [['w', 'a', 't', 'e', 'r'], ['水'], waterN], 0, 0, 0⟩

def stW : EngineState := initState defaultItems

def actW : Actor := ⟨['u'], ['A']⟩

def opMinus3 : Parsed := ⟨waterN, '-', 3, false⟩

def opSet7 : Parsed := ⟨waterN, '=', 7, false⟩

def opSet0 : Parsed := ⟨waterN, '=', 0, false⟩

def opPlus0 : Parsed := ⟨waterN, '+', 0, false⟩

def cexStock : List (Str × StockItem) := [(['w'], ⟨['w'], [['w']], 0, 0, 0⟩)]

def cexRecords : List StockRecord :=
  [⟨1, ['w'], ['u'], ['A'], 2, 1, true⟩, ⟨2, ['w'], ['u'], ['B'], 3, 2, true⟩]

def actsW : List Act := [Act.msg opMinus3 actW 2 true, Act.adminSet waterN 4]

/-! ## Helper lemmas -/

lemma ite_clamp (c : Int) : (if c < 0 then 0 else c) = max 0 c := by
  rcases lt_or_le c 0 with h | h
  · rw [if_pos h, max_eq_left h.le]
  · rw [if_neg (not_lt.mpr h), max_eq_right h]

/-- The record `handleOperation` builds for a non-no-op mutation. -/

lemma handleOperation_changed
    (st : EngineState) (op : Parsed) (actor : Actor) (ts : Int) (saveOk : Bool)
    (item item1 : StockItem) (change : Int) (actualOp : Char)
    (hfind : lookupStock st.stock op.itemName = some item)
    (happ : applyOp item op.operation op.value op.noRank = .changed item1 change actualOp) :
    handleOperation st op actor ts saveOk =
      if saveOk then
        ({ st with
            stock := updateStock st.stock item1
            records := st.records ++ [mkRecord st op actor ts change]
            nextId := st.nextId + 1
            itemFlushes := st.itemFlushes + 1
            recordFlushes := st.recordFlushes + 1 },
         .success op.itemName actualOp change item1.count (!op.noRank)
           ⟨ts, actor.userId, op.itemName⟩
           (if op.noRank then none
            else some (getRanking (updateStock st.stock item1)
              (st.records ++ [mkRecord st op actor ts change])
              op.itemName (if actualOp = '+' then .add else .consume))))
      else
        ({ st with stock := updateStock st.stock item1, itemFlushes := st.itemFlushes + 1 },
         .saveFailed op.itemName) := by
  unfold handleOperation
  rw [hfind]
  dsimp only
  rw [happ]
  cases saveOk <;> rfl

lemma applyOp_plus (item : StockItem) (v : Nat) (noRank : Bool) :
    applyOp item '+' v noRank =
      .changed
        { item with
          count := item.count + v
          totalAdded := if noRank then item.totalAdded else item.totalAdded + v }
        (v : Int) '+' := by
  rw [applyOp, if_pos rfl]

lemma applyOp_minus (item : StockItem) (v : Nat) (noRank : Bool) :
    applyOp item '-' v noRank =
      .changed
        { item with
          count := max 0 (item.count - v)
          totalConsumed := if noRank then item.totalConsumed else item.totalConsumed + v }
        (-(v : Int)) '-' := by
  rw [applyOp, if_neg (by decide : ¬('-' : Char) = '+'), if_pos rfl, ite_clamp]

lemma applyOp_set_inc (item : StockItem) (v : Nat) (noRank : Bool)
    (h : (0 : Int) < (v : Int) - item.count) :
    applyOp item '=' v noRank =
      .changed
        { item with
          count := (v : Int)
          totalAdded :=
            if noRank then item.totalAdded else item.totalAdded + ((v : Int) - item.count) }
        ((v : Int) - item.count) '+' := by
  rw [applyOp, if_neg (by decide : ¬('=' : Char) = '+'),
    if_neg (by decide : ¬('=' : Char) = '-'), if_pos rfl, if_pos h]

lemma applyOp_set_dec (item : StockItem) (v : Nat) (noRank : Bool)
    (h : (v : Int) - item.count < 0) :
    applyOp item '=' v noRank =
      .changed
        { item with
          count := (v : Int)
          totalConsumed :=
            if noRank then item.totalConsumed
            else item.totalConsumed + |(v : Int) - item.count| }
        ((v : Int) - item.count) '-' := by
  rw [applyOp, if_neg (by decide : ¬('=' : Char) = '+'),
    if_neg (by decide : ¬('=' : Char) = '-'), if_pos rfl, if_neg (by omega), if_pos h]

lemma applyOp_set_eq (item : StockItem) (v : Nat) (noRank : Bool)
    (h : (v : Int) = item.count) :
    applyOp item '=' v noRank = .unchanged item := by
  rw [applyOp, if_neg (by decide : ¬('=' : Char) = '+'),
    if_neg (by decide : ¬('=' : Char) = '-'), if_pos rfl]
  rw [if_neg (by omega), if_neg (by omega)]

end StockManager

namespace StockManager

lemma countsOk_iff (st : EngineState) :
    countsOk st = true ↔ ∀ p ∈ st.stock, 0 ≤ p.2.count := by
  rw [countsOk, List.all_eq_true]
  constructor
  · intro h p hp
    exact of_decide_eq_true (h p hp)
  · intro h p hp
    exact decide_eq_true (h p hp)

lemma mem_updateStock (stock : List (Str × StockItem)) (it : StockItem)
    (p : Str × StockItem) (hp : p ∈ updateStock stock it) : p.2 = it ∨ p ∈ stock := by
  induction stock with
  | nil =>
    simp only [updateStock, List.mem_singleton] at hp
    exact Or.inl (by rw [hp])
  | cons q rest ih =>
    obtain ⟨k, old⟩ := q
    rw [updateStock] at hp
    by_cases hk : k = it.name
    · rw [if_pos hk] at hp
      rcases List.mem_cons.mp hp with h | h
      · exact Or.inl (by rw [h])
      · exact Or.inr (List.mem_cons_of_mem _ h)
    · rw [if_neg hk] at hp
      rcases List.mem_cons.mp hp with h | h
      · exact Or.inr (by rw [h]; exact List.mem_cons_self _ _)
      · rcases ih h with h2 | h2
        · exact Or.inl h2
        · exact Or.inr (List.mem_cons_of_mem _ h2)

lemma lookupStock_mem (stock : List (Str × StockItem)) (n : Str) (it : StockItem)
    (h : lookupStock stock n = some it) : ∃ k, (k, it) ∈ stock := by
  unfold lookupStock at h
  cases hf : stock.find? (fun p => decide (p.1 = n)) with
  | none => rw [hf] at h; cases h
  | some p =>
    rw [hf] at h
    obtain ⟨k0, it0⟩ := p
    cases h
    exact ⟨k0, List.mem_of_find?_eq_some hf⟩

lemma applyOp_nonneg (item : StockItem) (opc : Char) (v : Nat) (noRank : Bool)
    (h0 : 0 ≤ item.count) :
    (∀ item1 ch aop, applyOp item opc v noRank = .changed item1 ch aop → 0 ≤ item1.count) ∧
    (∀ item0, applyOp item opc v noRank = .unchanged item0 → 0 ≤ item0.count) := by
  unfold applyOp
  split_ifs <;>
    refine ⟨fun item1 ch aop h => ?_, fun item0 h => ?_⟩ <;>
      first
        | (cases h; dsimp only; omega)
        | (cases h; exact h0)
        | cases h

lemma stepE_nonneg (st : EngineState) (a : Act)
    (h : ∀ p ∈ st.stock, 0 ≤ p.2.count)
    (hok : ∀ n c, a = Act.adminSet n c → 0 ≤ c) :
    ∀ p ∈ (stepE st a).stock, 0 ≤ p.2.count := by
  cases a with
  | msg op actor ts saveOk =>
    rw [stepE]
    cases hfind : lookupStock st.stock op.itemName with
    | none =>
      unfold handleOperation
      rw [hfind]
      exact h
    | some item =>
      have hitem : 0 ≤ item.count := by
        obtain ⟨k, hk⟩ := lookupStock_mem st.stock op.itemName item hfind
        exact h (k, item) hk
      cases happ : applyOp item op.operation op.value op.noRank with
      | unchanged item0 =>
        unfold handleOperation
        rw [hfind]
        dsimp only
        rw [happ]
        exact h
      | changed item1 ch aop =>
        have h1 : 0 ≤ item1.count :=
          (applyOp_nonneg item op.operation op.value op.noRank hitem).1 item1 ch aop happ
        rw [handleOperation_changed st op actor ts saveOk item item1 ch aop hfind happ]
        intro p hp
        have hp2 : p ∈ updateStock st.stock item1 := by
          cases saveOk <;> simpa using hp
        rcases mem_updateStock st.stock item1 p hp2 with h2 | h2
        · rw [h2]; exact h1
        · exact h p h2
  | adminSet n c =>
    rw [stepE]
    unfold adminSetCount
    cases hfind : lookupStock st.stock n with
    | none => exact h
    | some it =>
      intro p hp
      have hc : 0 ≤ c := hok n c rfl
      dsimp only at hp
      rcases mem_updateStock st.stock { it with count := c } p hp with h2 | h2
      · rw [h2]; exact hc
      · exact h p h2

lemma tailMatch_eq_some {s : Str} {op : Char} {ds : Str} (h : tailMatch s = some (op, ds)) :
    s = op :: ds ∧ isOpChar op = true ∧ ds ≠ [] ∧ ds.all (fun d => d.isDigit) = true := by
  cases s with
  | nil => cases h
  | cons c ds0 =>
    rw [tailMatch] at h
    by_cases hc : (isOpChar c && !ds0.isEmpty && ds0.all (fun d => d.isDigit)) = true
    · rw [if_pos hc] at h
      cases h
      rw [Bool.and_eq_true, Bool.and_eq_true] at hc
      refine ⟨rfl, hc.1.1, ?_, hc.2⟩
      intro hnil
      rw [hnil] at hc
      simp at hc
    · rw [if_neg hc] at h
      cases h

lemma tailMatch_of {op : Char} {ds : Str} (hop : isOpChar op = true) (hne : ds ≠ [])
    (hd : ds.all (fun d => d.isDigit) = true) : tailMatch (op :: ds) = some (op, ds) := by
  rw [tailMatch, if_pos]
  rw [hop, hd]
  simp [List.isEmpty_iff, hne]

lemma matchOpPattern_sound :
    ∀ {s a : Str} {op : Char} {ds : Str}, matchOpPattern s = some (a, op, ds) →
      s = a ++ op :: ds ∧ a ≠ [] ∧ (∀ c ∈ a, isDotChar c = true) ∧ isOpChar op = true ∧
        ds ≠ [] ∧ ds.all (fun d => d.isDigit) = true ∧
        (∀ a2 op2 ds2, s = a2 ++ op2 :: ds2 → a2 ≠ [] → isOpChar op2 = true → ds2 ≠ [] →
          ds2.all (fun d => d.isDigit) = true → a.length ≤ a2.length) := by
  intro s
  induction s with
  | nil => intro a op ds h; cases h
  | cons c rest ih =>
    intro a op ds h
    rw [matchOpPattern] at h
    by_cases hdot : isDotChar c = true
    · rw [if_pos hdot] at h
      cases htm : tailMatch rest with
      | some x =>
        obtain ⟨op0, ds0⟩ := x
        rw [htm] at h
        cases h
        obtain ⟨hrest, hop0, hne0, hd0⟩ := tailMatch_eq_some htm
        refine ⟨by rw [hrest]; rfl, by simp, ?_, hop0, hne0, hd0, ?_⟩
        · intro x hx
          rw [List.mem_singleton] at hx
          rw [hx]
          exact hdot
        · intro a2 op2 ds2 _ hne2 _ _ _
          have : 1 ≤ a2.length := List.length_pos.mpr hne2
          simpa using this
      | none =>
        rw [htm] at h
        cases hmp : matchOpPattern rest with
        | none => rw [hmp] at h; cases h
        | some y =>
          obtain ⟨a0, op0, ds0⟩ := y
          rw [hmp] at h
          cases h
          obtain ⟨hsplit, hne0, hdots, hop0, hnds, hds, hmin⟩ := ih hmp
          refine ⟨by rw [List.cons_append, ← hsplit], by simp, ?_, hop0, hnds, hds, ?_⟩
          · intro x hx
            rcases List.mem_cons.mp hx with hx | hx
            · rw [hx]; exact hdot
            · exact hdots x hx
          · intro a2 op2 ds2 hs2 hne2 hop2 hnds2 hds2
            cases a2 with
            | nil => exact absurd rfl hne2
            | cons x a2t =>
              rw [List.cons_append, List.cons.injEq] at hs2
              obtain ⟨hxc, hrest2⟩ := hs2
              cases a2t with
              | nil =>
                rw [List.nil_append] at hrest2
                rw [hrest2, tailMatch_of hop2 hnds2 hds2] at htm
                cases htm
              | cons x2 a2t2 =>
                have := hmin (x2 :: a2t2) op2 ds2 hrest2 (by simp) hop2 hnds2 hds2
                simpa using Nat.succ_le_succ this
    · rw [if_neg hdot] at h
      cases h

lemma matchOpPattern_complete :
    ∀ {a2 : Str} {op2 : Char} {ds2 s : Str}, s = a2 ++ op2 :: ds2 → a2 ≠ [] →
      (∀ c ∈ a2, isDotChar c = true) → isOpChar op2 = true → ds2 ≠ [] →
      ds2.all (fun d => d.isDigit) = true → (matchOpPattern s).isSome = true := by
  intro a2
  induction a2 with
  | nil => intro op2 ds2 s _ hne; exact absurd rfl hne
  | cons x a2t ih =>
    intro op2 ds2 s hs _ hdots hop2 hnds2 hds2
    rw [hs, List.cons_append, matchOpPattern,
      if_pos (hdots x (List.mem_cons_self x a2t))]
    cases htm : tailMatch (a2t ++ op2 :: ds2) with
    | some y => obtain ⟨o, d⟩ := y; rfl
    | none =>
      cases a2t with
      | nil =>
        rw [List.nil_append] at htm
        rw [tailMatch_of hop2 hnds2 hds2] at htm
        cases htm
      | cons x2 a2t2 =>
        have hih := ih (s := (x2 :: a2t2) ++ op2 :: ds2) rfl (by simp)
          (fun c hc => hdots c (List.mem_cons_of_mem x hc)) hop2 hnds2 hds2
        cases hmp : matchOpPattern ((x2 :: a2t2) ++ op2 :: ds2) with
        | none => rw [hmp] at hih; cases hih
        | some y => obtain ⟨a0, op0, ds0⟩ := y; rfl

end StockManager

namespace StockManager

lemma statsStep_eq (ty : RankType) (m : List (Str × UStat)) (r : StockRecord) :
    statsStep ty m r = if signOk ty r then bumpContrib ty m r else m := by
  cases ty <;> rw [statsStep, signOk, bumpContrib, contribOf] <;>
    by_cases h : r.change < 0 <;> by_cases h2 : r.change > 0 <;>
      simp [h, h2]

lemma foldl_statsStep (ty : RankType) :
    ∀ (l : List StockRecord) (m : List (Str × UStat)),
      l.foldl (statsStep ty) m = (l.filter (signOk ty)).foldl (bumpContrib ty) m := by
  intro l
  induction l with
  | nil => intro m; rfl
  | cons r rest ih =>
    intro m
    rw [List.foldl_cons, statsStep_eq]
    by_cases h : signOk ty r = true
    · rw [if_pos h, List.filter_cons_of_pos h, List.foldl_cons]
      exact ih _
    · rw [if_neg h, List.filter_cons_of_neg (by simpa using h)]
      exact ih m

lemma relevant_filter_sign (records : List StockRecord) (itemName : Str) (ty : RankType) :
    (records.filter (fun r => decide (r.itemName = itemName) && r.isRanked)).filter
        (signOk ty) =
      matchingRecords records itemName ty := by
  rw [List.filter_filter, matchingRecords]
  apply List.filter_congr
  intro r _
  cases h1 : decide (r.itemName = itemName) <;> cases h2 : r.isRanked <;>
    cases h3 : signOk ty r <;> rfl

lemma mem_firstDedup (x : Str) : ∀ (l : List Str), x ∈ firstDedup l ↔ x ∈ l := by
  intro l
  induction l with
  | nil => simp [firstDedup]
  | cons k rest ih =>
    rw [firstDedup]
    by_cases hxk : x = k
    · subst hxk
      simp
    · simp only [List.mem_cons, List.mem_filter, ih]
      constructor
      · rintro (h | ⟨h, _⟩)
        · exact Or.inl h
        · exact Or.inr h
      · rintro (h | h)
        · exact Or.inl h
        · exact Or.inr ⟨h, by simpa using hxk⟩

lemma nodup_firstDedup : ∀ (l : List Str), (firstDedup l).Nodup := by
  intro l
  induction l with
  | nil => simp [firstDedup]
  | cons k rest ih =>
    rw [firstDedup, List.nodup_cons]
    constructor
    · intro hk
      have := (List.mem_filter.mp hk).2
      simp at this
    · exact ih.filter _

lemma firstDedup_concat (x : Str) :
    ∀ (l : List Str),
      firstDedup (l ++ [x]) = if x ∈ l then firstDedup l else firstDedup l ++ [x] := by
  intro l
  induction l with
  | nil => simp [firstDedup]
  | cons k rest ih =>
    rw [List.cons_append, firstDedup, firstDedup, ih]
    by_cases hx : x ∈ rest
    · rw [if_pos hx, if_pos (List.mem_cons_of_mem k hx)]
    · rw [if_neg hx]
      by_cases hxk : x = k
      · subst hxk
        rw [if_pos (List.mem_cons_self x rest), List.filter_append]
        simp
      · rw [if_neg (by simp [hxk, hx]), List.filter_append]
        simp [hxk]

lemma firstNameFor_append_of_mem (l : List StockRecord) (r : StockRecord) (u : Str)
    (h : u ∈ l.map (fun q => q.userId)) :
    firstNameFor (l ++ [r]) u = firstNameFor l u := by
  obtain ⟨q, hq, hqu⟩ := List.mem_map.mp h
  have hs : (l.find? (fun q2 => decide (q2.userId = u))).isSome = true :=
    List.find?_isSome.mpr ⟨q, hq, by simpa using hqu⟩
  obtain ⟨q0, hq0⟩ := Option.isSome_iff_exists.mp hs
  rw [firstNameFor, firstNameFor, List.find?_append, hq0]
  rfl

lemma firstNameFor_append_of_not_mem (l : List StockRecord) (r : StockRecord)
    (h : r.userId ∉ l.map (fun q => q.userId)) :
    firstNameFor (l ++ [r]) r.userId = r.userName := by
  have hn : l.find? (fun q2 => decide (q2.userId = r.userId)) = none := by
    rw [List.find?_eq_none]
    intro q hq hpq
    exact h (List.mem_map.mpr ⟨q, hq, by simpa using hpq⟩)
  rw [firstNameFor, List.find?_append, hn, Option.none_or]
  simp [List.find?]

lemma userTotal_append (ty : RankType) (l : List StockRecord) (r : StockRecord) (u : Str) :
    userTotal ty (l ++ [r]) u =
      userTotal ty l u + (if r.userId = u then contribOf ty r else 0) := by
  rw [userTotal, userTotal, List.filter_append, List.map_append, List.sum_append]
  congr 1
  by_cases h : r.userId = u
  · rw [if_pos h]
    simp [List.filter, h]
  · rw [if_neg h]
    simp [List.filter, h]

lemma userTotal_of_not_mem (ty : RankType) (l : List StockRecord) (u : Str)
    (h : u ∉ l.map (fun q => q.userId)) : userTotal ty l u = 0 := by
  rw [userTotal]
  have : l.filter (fun q => decide (q.userId = u)) = [] := by
    rw [List.filter_eq_nil_iff]
    intro q hq hpq
    exact h (List.mem_map.mpr ⟨q, hq, by simpa using hpq⟩)
  rw [this]
  rfl

lemma bumpStat_map (u0 uname : Str) (amt : Int) (f : Str → UStat) :
    ∀ (keys : List Str), keys.Nodup →
      bumpStat (keys.map (fun u => (u, f u))) u0 uname amt =
        (if u0 ∈ keys then
          keys.map (fun u =>
            (u, if u = u0 then (⟨(f u).name, (f u).count + amt⟩ : UStat) else f u))
        else keys.map (fun u => (u, f u)) ++ [(u0, ⟨uname, amt⟩)]) := by
  intro keys
  induction keys with
  | nil => intro _; simp [bumpStat]
  | cons k rest ih =>
    intro hnd
    rw [List.nodup_cons] at hnd
    rw [List.map_cons, bumpStat]
    by_cases hk : k = u0
    · subst hk
      rw [if_pos rfl, if_pos (List.mem_cons_self k rest), List.map_cons, if_pos rfl]
      congr 1
      apply List.map_congr_left
      intro u hu
      have : ¬u = k := fun he => hnd.1 (he ▸ hu)
      rw [if_neg this]
    · rw [if_neg hk, ih hnd.2]
      by_cases hmem : u0 ∈ rest
      · rw [if_pos hmem, if_pos (List.mem_cons_of_mem k hmem), List.map_cons, if_neg hk]
      · have hnc : u0 ∉ k :: rest := by
          rw [List.mem_cons]
          rintro (he | he)
          · exact hk he.symm
          · exact hmem he
        rw [if_neg hmem, if_neg hnc, List.cons_append]

lemma foldl_bump_spec (ty : RankType) :
    ∀ (l : List StockRecord),
      l.foldl (bumpContrib ty) [] =
        (firstDedup (l.map (fun r => r.userId))).map
          (fun u => (u, (⟨firstNameFor l u, userTotal ty l u⟩ : UStat))) := by
  intro l
  induction l using List.reverseRecOn with
  | nil => rfl
  | append_singleton l r ih =>
    rw [List.foldl_append, List.foldl_cons, List.foldl_nil, ih, bumpContrib]
    simp only [List.map_append, List.map_cons, List.map_nil]
    rw [firstDedup_concat]
    by_cases hmem : r.userId ∈ l.map (fun q => q.userId)
    · rw [if_pos hmem,
        bumpStat_map r.userId r.userName (contribOf ty r) _ _ (nodup_firstDedup _),
        if_pos ((mem_firstDedup _ _).mpr hmem)]
      apply List.map_congr_left
      intro u hu
      have humem : u ∈ l.map (fun q => q.userId) := (mem_firstDedup _ _).mp hu
      rw [firstNameFor_append_of_mem l r u humem, userTotal_append]
      by_cases hu0 : u = r.userId
      · rw [if_pos hu0, if_pos hu0.symm]
      · rw [if_neg hu0, if_neg (fun he => hu0 he.symm), add_zero]
    · rw [if_neg hmem,
        bumpStat_map r.userId r.userName (contribOf ty r) _ _ (nodup_firstDedup _),
        if_neg (fun h => hmem ((mem_firstDedup _ _).mp h)), List.map_append]
      congr 1
      · apply List.map_congr_left
        intro u hu
        have humem : u ∈ l.map (fun q => q.userId) := (mem_firstDedup _ _).mp hu
        have hne : r.userId ≠ u := fun he => hmem (he ▸ humem)
        rw [firstNameFor_append_of_mem l r u humem, userTotal_append, if_neg hne, add_zero]
      · rw [List.map_cons, List.map_nil]
        rw [firstNameFor_append_of_not_mem l r hmem, userTotal_append,
          userTotal_of_not_mem ty l r.userId hmem, if_pos rfl, zero_add]

lemma firstDedup_isEmpty : ∀ (l : List Str), (firstDedup l).isEmpty = l.isEmpty := by
  intro l
  cases l <;> rfl

lemma isEmpty_eq_of_length {α β : Type} (l1 : List α) (l2 : List β)
    (h : l1.length = 0 ↔ l2.length = 0) : l1.isEmpty = l2.isEmpty := by
  cases l1 <;> cases l2 <;> simp_all

/-! ## The claims -/

/-- C1: a decrease of magnitude `m` through the inventory engine sets the count to
`max 0 (count - m)` — never below zero — while, unless the operation is excluded from
ranking, `totalConsumed` grows by the full requested `m`, and the history entry's
`change` is `-m`, even when the count clamped at 0. -/
theorem decrease_clamps_count_logs_full_magnitude
    (st : EngineState) (op : Parsed) (actor : Actor) (ts : Int) (item : StockItem)
    (hfind : lookupStock st.stock op.itemName = some item)
    (hop : op.operation = '-') :
    ∃ rk,
      handleOperation st op actor ts true =
        ({ st with
            stock := updateStock st.stock
              { item with
                  count := max 0 (item.count - op.value)
                  totalConsumed :=
                    if op.noRank then item.totalConsumed
                    else item.totalConsumed + op.value }
            records := st.records ++ [mkRecord st op actor ts (-(op.value : Int))]
            nextId := st.nextId + 1
            itemFlushes := st.itemFlushes + 1
            recordFlushes := st.recordFlushes + 1 },
          .success op.itemName '-' (-(op.value : Int)) (max 0 (item.count - op.value))
            (!op.noRank) ⟨ts, actor.userId, op.itemName⟩ rk) := by
  have happ : applyOp item op.operation op.value op.noRank =
      .changed
        { item with
          count := max 0 (item.count - op.value)
          totalConsumed :=
            if op.noRank then item.totalConsumed else item.totalConsumed + op.value }
        (-(op.value : Int)) '-' := by
    rw [hop]; exact applyOp_minus item op.value op.noRank
  have h := handleOperation_changed st op actor ts true item _ _ _ hfind happ
  rw [if_pos rfl] at h
  exact ⟨_, h⟩

theorem decrease_clamps_count_logs_full_magnitude_witness :
    ∃ rk,
      handleOperation stW opMinus3 actW 7 true =
        ({ stW with
            stock := updateStock stW.stock
              { itemW with
                  count := max 0 (itemW.count - opMinus3.value)
                  totalConsumed :=
                    if opMinus3.noRank then itemW.totalConsumed
                    else itemW.totalConsumed + opMinus3.value }
            records := stW.records ++ [mkRecord stW opMinus3 actW 7 (-(opMinus3.value : Int))]
            nextId := stW.nextId + 1
            itemFlushes := stW.itemFlushes + 1
            recordFlushes := stW.recordFlushes + 1 },
          .success opMinus3.itemName '-' (-(opMinus3.value : Int))
            (max 0 (itemW.count - opMinus3.value)) (!opMinus3.noRank)
            ⟨7, actW.userId, opMinus3.itemName⟩ rk) :=
  decrease_clamps_count_logs_full_magnitude stW opMinus3 actW 7 itemW (by decide) rfl

/-- C2: `parseOperation` succeeds exactly on inputs whose stripped-and-trimmed text
splits as alias, operator, digits with the operator one of `+`, `-`, `=`, a non-empty
all-digit magnitude read as a non-negative integer, and a resolving alias; the alias
captured is the shortest prefix whose remainder is one operator followed only by digits
to the end, so trailing content after the digits or an unresolved alias yields `none`
rather than an error; and alias resolution depends only on the lower-cased alias text
(case-insensitivity). -/
theorem parse_characterization :
    (∀ (cfg : List ItemCfg) (t : Str) (o : Parsed),
      parseOperation cfg t = some o ↔
        ∃ a ds,
          jsTrim (stripRFlag t) = a ++ o.operation :: ds ∧
          a ≠ [] ∧ (∀ c ∈ a, isDotChar c = true) ∧
          isOpChar o.operation = true ∧
          ds ≠ [] ∧ ds.all (fun d => d.isDigit) = true ∧
          getItemName cfg (jsTrim a) = some o.itemName ∧
          o.value = digitsToNat ds ∧
          o.noRank = testRFlag t ∧
          (∀ a2 op2 ds2, jsTrim (stripRFlag t) = a2 ++ op2 :: ds2 → a2 ≠ [] →
            isOpChar op2 = true → ds2 ≠ [] → ds2.all (fun d => d.isDigit) = true →
            a.length ≤ a2.length)) ∧
    (∀ (cfg : List ItemCfg) (a b : Str),
      lowerStr a = lowerStr b → getItemName cfg a = getItemName cfg b) := by
  constructor
  · intro cfg t o
    constructor
    · intro h
      rw [parseOperation] at h
      cases hm : matchOpPattern (jsTrim (stripRFlag t)) with
      | none => rw [hm] at h; cases h
      | some x =>
        obtain ⟨a0, op0, ds0⟩ := x
        rw [hm] at h
        dsimp only at h
        cases hg : getItemName cfg (jsTrim a0) with
        | none => rw [hg] at h; cases h
        | some nm =>
          rw [hg] at h
          cases h
          obtain ⟨hsplit, hane, hadots, hop, hdne, hdall, hmin⟩ := matchOpPattern_sound hm
          exact ⟨a0, ds0, hsplit, hane, hadots, hop, hdne, hdall, hg, rfl, rfl, hmin⟩
    · intro ⟨a, ds, hsplit, hane, hadots, hop, hdne, hdall, hget, hval, hnr, hmin⟩
      have hs : (matchOpPattern (jsTrim (stripRFlag t))).isSome = true :=
        matchOpPattern_complete hsplit hane hadots hop hdne hdall
      obtain ⟨⟨a0, op0, ds0⟩, hm⟩ := Option.isSome_iff_exists.mp hs
      obtain ⟨hsplit0, hane0, _, hop0, hdne0, hdall0, hmin0⟩ := matchOpPattern_sound hm
      have hlen : a.length = a0.length :=
        le_antisymm (hmin a0 op0 ds0 hsplit0 hane0 hop0 hdne0 hdall0)
          (hmin0 a o.operation ds hsplit hane hop hdne hdall)
      obtain ⟨ha, htl⟩ := List.append_inj (hsplit.symm.trans hsplit0) hlen
      obtain ⟨hopeq, hdseq⟩ := List.cons.injEq .. ▸ htl
      rw [parseOperation]
      rw [hm]
      dsimp only
      rw [← ha, hget]
      obtain ⟨n, opc, v, r⟩ := o
      dsimp only at hsplit hget hval hnr hopeq ⊢
      rw [← hopeq, ← hdseq, ← hval, ← hnr]
  · intro cfg a b h
    rw [getItemName, getItemName, h]

end StockManager

namespace StockManager

/-- The per-record bump with the sign filtering factored out. -/

theorem parse_characterization_witness :
    getItemName defaultItems (lowerStr ['W', 'A', 'T', 'E', 'R']) =
      getItemName defaultItems ['W', 'A', 'T', 'E', 'R'] :=
  parse_characterization.2 defaultItems (lowerStr ['W', 'A', 'T', 'E', 'R']) ['W', 'A', 'T', 'E', 'R']
    (by decide)

/-- C3: a set operation of magnitude `m` on count `c` with `diff = m - c` acts as an
increase of `diff` when `diff > 0` (raising `totalAdded` unless excluded) and as a
decrease of `|diff|` when `diff < 0` (raising `totalConsumed` unless excluded); in both
cases the new count is `m` and the history entry's change equals `diff`. -/
theorem set_operation_diff_semantics
    (st : EngineState) (op : Parsed) (actor : Actor) (ts : Int) (item : StockItem)
    (hfind : lookupStock st.stock op.itemName = some item)
    (hop : op.operation = '=') :
    ((0 : Int) < (op.value : Int) - item.count →
      ∃ rk,
        handleOperation st op actor ts true =
          ({ st with
              stock := updateStock st.stock
                { item with
                    count := (op.value : Int)
                    totalAdded :=
                      if op.noRank then item.totalAdded
                      else item.totalAdded + ((op.value : Int) - item.count) }
              records := st.records ++ [mkRecord st op actor ts ((op.value : Int) - item.count)]
              nextId := st.nextId + 1
              itemFlushes := st.itemFlushes + 1
              recordFlushes := st.recordFlushes + 1 },
            .success op.itemName '+' ((op.value : Int) - item.count) (op.value : Int)
              (!op.noRank) ⟨ts, actor.userId, op.itemName⟩ rk)) ∧
    ((op.value : Int) - item.count < 0 →
      ∃ rk,
        handleOperation st op actor ts true =
          ({ st with
              stock := updateStock st.stock
                { item with
                    count := (op.value : Int)
                    totalConsumed :=
                      if op.noRank then item.totalConsumed
                      else item.totalConsumed + |(op.value : Int) - item.count| }
              records := st.records ++ [mkRecord st op actor ts ((op.value : Int) - item.count)]
              nextId := st.nextId + 1
              itemFlushes := st.itemFlushes + 1
              recordFlushes := st.recordFlushes + 1 },
            .success op.itemName '-' ((op.value : Int) - item.count) (op.value : Int)
              (!op.noRank) ⟨ts, actor.userId, op.itemName⟩ rk)) := by
  constructor
  · intro hpos
    have happ := applyOp_set_inc item op.value op.noRank hpos
    rw [← hop] at happ
    have h := handleOperation_changed st op actor ts true item _ _ _ hfind happ
    rw [if_pos rfl] at h
    exact ⟨_, h⟩
  · intro hneg
    have happ := applyOp_set_dec item op.value op.noRank hneg
    rw [← hop] at happ
    have h := handleOperation_changed st op actor ts true item _ _ _ hfind happ
    rw [if_pos rfl] at h
    exact ⟨_, h⟩

theorem set_operation_diff_semantics_witness :
    ∃ rk,
      handleOperation stW opSet7 actW 9 true =
        ({ stW with
            stock := updateStock stW.stock
              { itemW with
                  count := (opSet7.value : Int)
                  totalAdded :=
                    if opSet7.noRank then itemW.totalAdded
                    else itemW.totalAdded + ((opSet7.value : Int) - itemW.count) }
            records := stW.records ++
              [mkRecord stW opSet7 actW 9 ((opSet7.value : Int) - itemW.count)]
            nextId := stW.nextId + 1
            itemFlushes := stW.itemFlushes + 1
            recordFlushes := stW.recordFlushes + 1 },
          .success opSet7.itemName '+' ((opSet7.value : Int) - itemW.count)
            (opSet7.value : Int) (!opSet7.noRank) ⟨9, actW.userId, opSet7.itemName⟩ rk) :=
  (set_operation_diff_semantics stW opSet7 actW 9 itemW (by decide) rfl).1 (by decide)

/-- C4: a set operation whose magnitude equals the item's current count is a no-op: the
engine state (stock, history, next id, scheduled flush counters) is unchanged and the
caller gets the distinct `unchanged` response, not a success response. -/
theorem set_to_current_count_noop
    (st : EngineState) (op : Parsed) (actor : Actor) (ts : Int) (saveOk : Bool)
    (item : StockItem)
    (hfind : lookupStock st.stock op.itemName = some item)
    (hop : op.operation = '=')
    (hval : (op.value : Int) = item.count) :
    handleOperation st op actor ts saveOk = (st, .unchanged op.itemName item.count) := by
  unfold handleOperation
  rw [hfind]
  dsimp only
  rw [hop, applyOp_set_eq item op.value op.noRank hval]

end StockManager

namespace StockManager

theorem set_to_current_count_noop_witness :
    handleOperation stW opSet0 actW 9 false = (stW, .unchanged opSet0.itemName itemW.count) :=
  set_to_current_count_noop stW opSet0 actW 9 false itemW (by decide) rfl (by decide)

/-- C5: a standalone boundary-delimited `-r` token sets exclude-from-ranking: every
successful parse carries `noRank` equal to the `-r` token test on the raw input, and
the token is stripped before pattern matching wherever it sits relative to the
operator — `water-1-r` and `water-r-1` both parse as a decrease of 1 with the flag
set. -/
theorem rflag_excludes_from_ranking :
    (∀ (cfg : List ItemCfg) (t : Str) (o : Parsed),
      parseOperation cfg t = some o → o.noRank = testRFlag t) ∧
    parseOperation defaultItems ['w', 'a', 't', 'e', 'r', '-', '1', '-', 'r'] =
      some ⟨['纯', '净', '水'], '-', 1, true⟩ ∧
    parseOperation defaultItems ['w', 'a', 't', 'e', 'r', '-', 'r', '-', '1'] =
      some ⟨['纯', '净', '水'], '-', 1, true⟩ := by
  refine ⟨?_, by decide, by decide⟩
  intro cfg t o h
  rw [parseOperation] at h
  cases hm : matchOpPattern (jsTrim (stripRFlag t)) with
  | none => rw [hm] at h; cases h
  | some x =>
    obtain ⟨a, op, ds⟩ := x
    rw [hm] at h
    dsimp only at h
    cases hg : getItemName cfg (jsTrim a) with
    | none => rw [hg] at h; cases h
    | some nm =>
      rw [hg] at h
      cases h
      rfl

theorem rflag_excludes_from_ranking_witness :
    (⟨['纯', '净', '水'], '-', 1, true⟩ : Parsed).noRank =
      testRFlag ['w', 'a', 't', 'e', 'r', '-', '1', '-', 'r'] :=
  rflag_excludes_from_ranking.1 defaultItems ['w', 'a', 't', 'e', 'r', '-', '1', '-', 'r']
    ⟨['纯', '净', '水'], '-', 1, true⟩ (by decide)

/-- C6: a history flush retains at most 100 entries, re-sorted to ascending timestamp
order; every evicted entry is at least as old as every retained one, and the retained
entries together with the evicted ones are a permutation of the input log. -/
theorem history_flush_capped_sorted_oldest_evicted (records : List StockRecord) :
    (saveRecords records).length ≤ 100 ∧
    (saveRecords records).Pairwise (fun a b => a.timestamp ≤ b.timestamp) ∧
    (∀ e ∈ evictedRecords records, ∀ k ∈ saveRecords records, e.timestamp ≤ k.timestamp) ∧
    ((saveRecords records).reverse ++ evictedRecords records).Perm records := by
  have hsorted : (records.insertionSort recGe).Pairwise recGe :=
    List.sorted_insertionSort recGe records
  have htake : ((records.insertionSort recGe).take 100).Pairwise recGe :=
    hsorted.sublist (List.take_sublist _ _)
  refine ⟨?_, ?_, ?_, ?_⟩
  · simp [saveRecords]
  · rw [saveRecords, List.pairwise_reverse]
    exact htake
  · intro e he k hk
    rw [saveRecords, List.mem_reverse] at hk
    have hsplit := hsorted
    rw [← List.take_append_drop 100 (records.insertionSort recGe), List.pairwise_append]
      at hsplit
    exact hsplit.2.2 k hk e he
  · rw [saveRecords, evictedRecords, List.reverse_reverse, List.take_append_drop]
    exact List.perm_insertionSort recGe records

/-- C7 (amended to first-write-wins display names): for an item present in the stock
table, `getRanking` equals the declarative aggregation written from the claim: filter
the log to the item's ranked entries whose sign matches the type, group-sum per user
id — displaying the first `userName` seen for that id — sort descending by summed
total, keep the top 10, and return the placeholder, never the empty string, when
nothing matches. -/
theorem ranking_aggregator_characterization (stock : List (Str × StockItem)) (records : List StockRecord)
    (itemName : Str) (ty : RankType)
    (h : (lookupStock stock itemName).isSome = true) :
    getRanking stock records itemName ty = rankingFirstName records itemName ty ∧
    (matchingRecords records itemName ty = [] ↔
      getRanking stock records itemName ty = .placeholder ty) ∧
    (∀ l, getRanking stock records itemName ty = .top l →
      l.length ≤ 10 ∧ l.Pairwise statGe) ∧
    getRanking stock records itemName ty ≠ .emptyStr := by
  obtain ⟨item, hit⟩ := Option.isSome_iff_exists.mp h
  have heq : getRanking stock records itemName ty = rankingFirstName records itemName ty := by
    unfold getRanking
    rw [hit]
    dsimp only
    rw [foldl_statsStep, relevant_filter_sign, foldl_bump_spec]
    rw [rankingFirstName]
    simp only [List.map_map]
    have hvals :
        ((firstDedup ((matchingRecords records itemName ty).map fun r => r.userId)).map
            ((fun p => p.2) ∘ fun u =>
              (u, (⟨firstNameFor (matchingRecords records itemName ty) u,
                userTotal ty (matchingRecords records itemName ty) u⟩ : UStat)))) =
          ((firstDedup ((matchingRecords records itemName ty).map fun r => r.userId)).map
            (fun u =>
              (⟨firstNameFor (matchingRecords records itemName ty) u,
                userTotal ty (matchingRecords records itemName ty) u⟩ : UStat))) := rfl
    rw [hvals]
    have hcond :
        ((((firstDedup ((matchingRecords records itemName ty).map fun r => r.userId)).map
            (fun u =>
              (⟨firstNameFor (matchingRecords records itemName ty) u,
                userTotal ty (matchingRecords records itemName ty) u⟩ :
                UStat))).insertionSort statGe).take 10).isEmpty =
          (matchingRecords records itemName ty).isEmpty := by
      apply isEmpty_eq_of_length
      rw [List.length_take, (List.perm_insertionSort statGe _).length_eq, List.length_map]
      cases hM : matchingRecords records itemName ty with
      | nil => simp [firstDedup]
      | cons r M2 => simp [firstDedup, Nat.min_eq_zero_iff]
    rw [hcond]
  refine ⟨heq, ?_, ?_, ?_⟩
  · rw [heq, rankingFirstName]
    cases hM : matchingRecords records itemName ty with
    | nil => simp
    | cons r M2 => simp
  · intro l hl
    rw [heq, rankingFirstName] at hl
    cases hM : matchingRecords records itemName ty with
    | nil => rw [hM] at hl; simp at hl
    | cons r M2 =>
      rw [hM] at hl
      rw [if_neg (by simp)] at hl
      cases hl
      constructor
      · rw [List.length_take]
        exact Nat.min_le_left 10 _
      · exact (List.sorted_insertionSort statGe _).sublist (List.take_sublist _ _)
  · rw [heq, rankingFirstName]
    cases hM : matchingRecords records itemName ty with
    | nil => simp
    | cons r M2 => simp

theorem ranking_aggregator_characterization_witness :
    getRanking cexStock cexRecords ['w'] RankType.add =
        rankingFirstName cexRecords ['w'] RankType.add ∧
      (matchingRecords cexRecords ['w'] RankType.add = [] ↔
        getRanking cexStock cexRecords ['w'] RankType.add = .placeholder RankType.add) ∧
      (∀ l, getRanking cexStock cexRecords ['w'] RankType.add = .top l →
        l.length ≤ 10 ∧ l.Pairwise statGe) ∧
      getRanking cexStock cexRecords ['w'] RankType.add ≠ .emptyStr :=
  ranking_aggregator_characterization cexStock cexRecords ['w'] RankType.add (by decide)

/-- C7 counterexample: with two ranked additions by one user id under the names `A`
and then `B`, the code displays the first-seen name `A` while the claim's
last-write-wins aggregation displays `B`; also, for an item missing from the stock
table the code returns the empty string, not the placeholder. -/
theorem ranking_last_write_wins_cex :
    getRanking cexStock cexRecords ['w'] RankType.add = .top [⟨['A'], 5⟩] ∧
    rankingLastName cexRecords ['w'] RankType.add = .top [⟨['B'], 5⟩] ∧
    getRanking cexStock cexRecords ['w'] RankType.add ≠
      rankingLastName cexRecords ['w'] RankType.add ∧
    getRanking [] cexRecords ['w'] RankType.add = .emptyStr :=
  ⟨by decide, by decide, by decide, by decide⟩

/-- C8 (amended): counts stay non-negative along every action sequence in which each
admin `stock.set` magnitude is non-negative; in particular free-text operations alone
never drive a count below zero. -/
theorem count_nonneg_invariant_amended (cfg : List ItemCfg) (acts : List Act)
    (hok : ∀ a ∈ acts, ∀ n c, a = Act.adminSet n c → 0 ≤ c) :
    countsOk (acts.foldl stepE (initState cfg)) = true := by
  rw [countsOk_iff]
  have hinit : ∀ p ∈ (initState cfg).stock, 0 ≤ p.2.count := by
    intro p hp
    rw [initState] at hp
    dsimp only at hp
    obtain ⟨it, _, rfl⟩ := List.mem_map.mp hp
    exact le_refl 0
  have main : ∀ (l : List Act) (st : EngineState),
      (∀ p ∈ st.stock, 0 ≤ p.2.count) →
      (∀ a ∈ l, ∀ n c, a = Act.adminSet n c → 0 ≤ c) →
      ∀ p ∈ (l.foldl stepE st).stock, 0 ≤ p.2.count := by
    intro l
    induction l with
    | nil =>
      intro st h _
      exact h
    | cons a rest ih =>
      intro st h hok2
      rw [List.foldl_cons]
      exact ih (stepE st a) (stepE_nonneg st a h (hok2 a (List.mem_cons_self a rest)))
        (fun b hb => hok2 b (List.mem_cons_of_mem a hb))
  exact main acts (initState cfg) hinit hok

end StockManager

namespace StockManager

theorem count_nonneg_invariant_amended_witness : countsOk (actsW.foldl stepE (initState defaultItems)) = true :=
  count_nonneg_invariant_amended defaultItems actsW
    (by
      intro a ha n c he
      rcases List.mem_cons.mp ha with h | h
      · rw [h] at he
        cases he
      · rcases List.mem_cons.mp h with h2 | h2
        · rw [h2] at he
          cases he
          decide
        · cases h2)

/-- C8 counterexample: admin `stock.set` writes its argument verbatim, so setting `-5`
reaches a state whose count is negative. -/
theorem count_negative_admin_set_cex :
    countsOk (stepE (initState defaultItems) (Act.adminSet ['纯', '净', '水'] (-5))) = false ∧
    lookupStock (stepE (initState defaultItems) (Act.adminSet ['纯', '净', '水'] (-5))).stock
        ['纯', '净', '水'] =
      some ⟨['纯', '净', '水'], [['w', 'a', 't', 'e', 'r'], ['水'], ['纯', '净', '水']],
        -5, 0, 0⟩ := by
  constructor
  · decide
  · decide

/-- C9: when the awaited persistence step fails after the in-memory mutation, the
stock table is exactly what a successful save would have left (the mutation is not
rolled back) and the caller receives the save-failed warning response. -/
theorem persist_failure_no_rollback
    (st : EngineState) (op : Parsed) (actor : Actor) (ts : Int) :
    ((handleOperation st op actor ts false).1.stock =
        (handleOperation st op actor ts true).1.stock) ∧
    (∀ item item1 change actualOp,
      lookupStock st.stock op.itemName = some item →
      applyOp item op.operation op.value op.noRank = .changed item1 change actualOp →
      handleOperation st op actor ts false =
        ({ st with stock := updateStock st.stock item1, itemFlushes := st.itemFlushes + 1 },
          .saveFailed op.itemName)) := by
  constructor
  · cases hfind : lookupStock st.stock op.itemName with
    | none => unfold handleOperation; rw [hfind]
    | some item =>
      cases happ : applyOp item op.operation op.value op.noRank with
      | unchanged item0 => unfold handleOperation; rw [hfind]; dsimp only; rw [happ]
      | changed item1 change actualOp =>
        rw [handleOperation_changed st op actor ts false item item1 change actualOp hfind happ,
          handleOperation_changed st op actor ts true item item1 change actualOp hfind happ]
        rfl
  · intro item item1 change actualOp hfind happ
    rw [handleOperation_changed st op actor ts false item item1 change actualOp hfind happ]
    rfl

end StockManager

namespace StockManager

theorem persist_failure_no_rollback_witness :
    ((handleOperation stW opMinus3 actW 7 false).1.stock =
        (handleOperation stW opMinus3 actW 7 true).1.stock) ∧
    (∀ item item1 change actualOp,
      lookupStock stW.stock opMinus3.itemName = some item →
      applyOp item opMinus3.operation opMinus3.value opMinus3.noRank =
        .changed item1 change actualOp →
      handleOperation stW opMinus3 actW 7 false =
        ({ stW with
            stock := updateStock stW.stock item1
            itemFlushes := stW.itemFlushes + 1 },
          .saveFailed opMinus3.itemName)) :=
  persist_failure_no_rollback stW opMinus3 actW 7

/-- C10: an increase or decrease of magnitude 0 on an item with non-negative count is
not treated as a no-op: a history entry with change 0 and `isRanked` set per the flag
is appended, both persistence flushes are scheduled, and a success response with a
verification code is returned, while the counters stay numerically unchanged; the
grammar accepts `water+0` and `water-0`. -/
theorem zero_magnitude_not_noop
    (st : EngineState) (op : Parsed) (actor : Actor) (ts : Int) (item : StockItem)
    (hfind : lookupStock st.stock op.itemName = some item)
    (hcount : 0 ≤ item.count)
    (hval : op.value = 0)
    (hop : op.operation = '+' ∨ op.operation = '-') :
    (∃ rk aop,
      handleOperation st op actor ts true =
        ({ st with
            stock := updateStock st.stock item
            records := st.records ++ [mkRecord st op actor ts 0]
            nextId := st.nextId + 1
            itemFlushes := st.itemFlushes + 1
            recordFlushes := st.recordFlushes + 1 },
          .success op.itemName aop 0 item.count (!op.noRank)
            ⟨ts, actor.userId, op.itemName⟩ rk)) ∧
    parseOperation defaultItems ['w', 'a', 't', 'e', 'r', '+', '0'] =
      some ⟨['纯', '净', '水'], '+', 0, false⟩ ∧
    parseOperation defaultItems ['w', 'a', 't', 'e', 'r', '-', '0'] =
      some ⟨['纯', '净', '水'], '-', 0, false⟩ := by
  refine ⟨?_, by decide, by decide⟩
  rcases hop with hop | hop
  · have happ : applyOp item op.operation op.value op.noRank = .changed item 0 '+' := by
      rw [hop, hval, applyOp_plus]
      cases item
      cases op.noRank <;> simp
    have h := handleOperation_changed st op actor ts true item _ _ _ hfind happ
    rw [if_pos rfl] at h
    exact ⟨_, '+', h⟩
  · have happ : applyOp item op.operation op.value op.noRank = .changed item 0 '-' := by
      rw [hop, hval, applyOp_minus]
      cases item
      dsimp only at hcount
      cases op.noRank <;> simp <;> omega
    have h := handleOperation_changed st op actor ts true item _ _ _ hfind happ
    rw [if_pos rfl] at h
    exact ⟨_, '-', h⟩

end StockManager

namespace StockManager

/-- Every count in the stock table is non-negative (decidably phrased). -/

theorem zero_magnitude_not_noop_witness :
    (∃ rk aop,
      handleOperation stW opPlus0 actW 5 true =
        ({ stW with
            stock := updateStock stW.stock itemW
            records := stW.records ++ [mkRecord stW opPlus0 actW 5 0]
            nextId := stW.nextId + 1
            itemFlushes := stW.itemFlushes + 1
            recordFlushes := stW.recordFlushes + 1 },
          .success opPlus0.itemName aop 0 itemW.count (!opPlus0.noRank)
            ⟨5, actW.userId, opPlus0.itemName⟩ rk)) ∧
    parseOperation defaultItems ['w', 'a', 't', 'e', 'r', '+', '0'] =
      some ⟨['纯', '净', '水'], '+', 0, false⟩ ∧
    parseOperation defaultItems ['w', 'a', 't', 'e', 'r', '-', '0'] =
      some ⟨['纯', '净', '水'], '-', 0, false⟩ :=
  zero_magnitude_not_noop stW opPlus0 actW 5 itemW (by decide) (by decide) rfl (Or.inl rfl)

end StockManager
